import Mathlib

/-!
Shallow embedding of `src/challenges/dll.c`, a doubly-linked list of
heap-allocated strings.  Pointers are modelled as natural-number
addresses into an explicit store (an association list from addresses to
nodes, newest entry first); `NULL` is `Option.none`.  Allocation is
modelled by a monotone `fresh` counter attached to the list handle.
Undefined behaviour of the C program (dereferencing a null or dangling
pointer, `strcpy` overflowing the fixed `MAX_DATA_LEN` buffer, and the
non-terminating traversal loops reached with a negative index) is
modelled by `Option.none` / `OpResult.crash`: no result is produced.
-/

namespace Dll

/-- `const int MAX_DATA_LEN = 100;` -/
def MAX_DATA_LEN : Nat := 100

/-- `struct Node`: a payload string and two optional neighbour pointers. -/
structure Node where
  data : String
  prev : Option Nat
  next : Option Nat
deriving DecidableEq

/-- The heap of allocated nodes: address/node pairs, newest first. -/
def Store := List (Nat × Node)

instance : DecidableEq Store := by
  unfold Store
  infer_instance

/-- Reading the node at an address (first matching entry). -/
def lookupN : Store → Nat → Option Node
  | [], _ => none
  | (b, n) :: s, a => if a = b then some n else lookupN s a

/-- Writing through a pointer: update the node stored at address `a`.
Writes in the C source only happen through pointers that were obtained
from a live node, so the address is present in every reachable state. -/
def updN (s : Store) (a : Nat) (f : Node → Node) : Store :=
  s.map (fun p => if p.1 = a then (p.1, f p.2) else p)

/-- `free`: remove the node at address `a` from the store. -/
def removeN (s : Store) (a : Nat) : Store :=
  s.filter (fun p => p.1 ≠ a)

/-- `struct DoublyLinkedList` together with the allocator counter. -/
structure DLL where
  store : Store
  fresh : Nat
  head : Option Nat
  tail : Option Nat
  len : Int
deriving DecidableEq

/-- `create_node`: `calloc` a node, set the links, and `strcpy` the
payload into a fixed buffer of `MAX_DATA_LEN` bytes.  The copy writes
`strlen(data) + 1` bytes, so any payload whose byte size does not fit
the buffer overflows it — undefined behaviour, modelled as `none`. -/
def create_node (data : String) (prev next : Option Nat) : Option Node :=
  if data.utf8ByteSize + 1 ≤ MAX_DATA_LEN then some ⟨data, prev, next⟩ else none

/-- `create_doubly_linked_list`: one seed node, head = tail, length 1. -/
def create_doubly_linked_list (data : String) : Option DLL :=
  match create_node data none none with
  | none => none
  | some nd => some ⟨[(0, nd)], 1, some 0, some 0, 1⟩

/-- The `find` loop: scan forward comparing payloads, counting from `i`.
`fuel` bounds the number of `t = t->next` steps; it is exhausted only
when the pointer chain is longer than the whole store, i.e. cyclic, in
which case the C loop diverges (modelled as `none`). -/
def findLoop (s : Store) (target : String) : Nat → Option Nat → Int → Option Int
  | _, none, _ => some (-1)
  | fuel, some a, i =>
    match lookupN s a with
    | none => none
    | some n =>
      if n.data = target then some i
      else
        match fuel with
        | 0 => none
        | fuel' + 1 => findLoop s target fuel' n.next (i + 1)

/-- `find`: index of the first node whose payload equals `target`, `-1`
if there is none. -/
def find (dll : DLL) (target : String) : Option Int :=
  findLoop dll.store target (dll.store.length + 1) dll.head 0

/-- `append`: link a new node after the current tail. -/
def append (dll : DLL) (data : String) : Option DLL :=
  match dll.head with
  | none =>
    match create_node data none none with
    | none => none
    | some nd =>
      some ⟨(dll.fresh, nd) :: dll.store, dll.fresh + 1,
            some dll.fresh, some dll.fresh, dll.len + 1⟩
  | some h =>
    if dll.head = dll.tail then
      match create_node data dll.head none with
      | none => none
      | some nd =>
        some ⟨updN ((dll.fresh, nd) :: dll.store) h (fun m => { m with next := some dll.fresh }),
              dll.fresh + 1, dll.head, some dll.fresh, dll.len + 1⟩
    else
      match dll.tail with
      | none => none
      | some tl =>
        match create_node data dll.tail none with
        | none => none
        | some nd =>
          some ⟨updN ((dll.fresh, nd) :: dll.store) tl (fun m => { m with next := some dll.fresh }),
                dll.fresh + 1, dll.head, some dll.fresh, dll.len + 1⟩

/-- Outcome of `insert` / `delete`: normal completion, the out-of-range
branch (which prints a message and returns with the list untouched), or
undefined behaviour (null/dangling dereference, buffer overflow). -/
inductive OpResult where
  | ok : DLL → OpResult
  | outOfRange : DLL → OpResult
  | crash : OpResult
deriving DecidableEq

/-- The shared locate loop of `insert` and `delete`:
`t = head; while (i != indx) { t = t->next; i++; }`, taking `k` steps.
`none` means a step dereferenced a null or dangling pointer. -/
def walkPtr (s : Store) : Option Nat → Nat → Option (Option Nat)
  | t, 0 => some t
  | t, k + 1 =>
    match t with
    | none => none
    | some a =>
      match lookupN s a with
      | none => none
      | some n => walkPtr s n.next k

/-- `insert`: place a new node at position `indx` (zero-based). -/
def insert (dll : DLL) (indx : Int) (data : String) : OpResult :=
  if dll.len < indx then .outOfRange dll
  else if indx = dll.len then
    match append dll data with
    | none => .crash
    | some d => .ok d
  else if indx < 0 then .crash
  else
    match walkPtr dll.store dll.head indx.toNat with
    | none => .crash
    | some none => .crash
    | some (some a) =>
      match lookupN dll.store a with
      | none => .crash
      | some tn =>
        match create_node data tn.prev (some a) with
        | none => .crash
        | some nd =>
          let s1 : Store := (dll.fresh, nd) :: dll.store
          let s2 : Store :=
            match tn.prev with
            | none => s1
            | some p => updN s1 p (fun m => { m with next := some dll.fresh })
          let s3 : Store := updN s2 a (fun m => { m with prev := some dll.fresh })
          .ok ⟨s3, dll.fresh + 1,
               if indx = 0 then some dll.fresh else dll.head,
               if indx = dll.len then some dll.fresh else dll.tail,
               dll.len + 1⟩

/-- `delete`: remove the node at position `indx` (zero-based). -/
def delete (dll : DLL) (indx : Int) : OpResult :=
  if dll.len ≤ indx then .outOfRange dll
  else if indx < 0 then .crash
  else
    match walkPtr dll.store dll.head indx.toNat with
    | none => .crash
    | some t =>
      if dll.len = 1 then
        .ok ⟨match t with
             | none => dll.store
             | some a => removeN dll.store a,
             dll.fresh, none, none, dll.len - 1⟩
      else
        match t with
        | none => .crash
        | some a =>
          match lookupN dll.store a with
          | none => .crash
          | some tn =>
            if indx = 0 then
              match tn.next with
              | none => .crash
              | some b =>
                .ok ⟨removeN (updN dll.store b (fun m => { m with prev := none })) a,
                     dll.fresh, tn.next, dll.tail, dll.len - 1⟩
            else if indx = dll.len - 1 then
              match tn.prev with
              | none => .crash
              | some p =>
                .ok ⟨removeN (updN dll.store p (fun m => { m with next := none })) a,
                     dll.fresh, dll.head, tn.prev, dll.len - 1⟩
            else
              match tn.prev, tn.next with
              | some p, some b =>
                .ok ⟨removeN
                       (updN (updN dll.store p (fun m => { m with next := tn.next }))
                         b (fun m => { m with prev := tn.prev }))
                       a,
                     dll.fresh, dll.head, dll.tail, dll.len - 1⟩
              | _, _ => .crash

/-- Run `append` over a list of payloads in order. -/
def appendAll (dll : DLL) : List String → Option DLL
  | [] => some dll
  | d :: ds =>
    match append dll d with
    | none => none
    | some dll2 => appendAll dll2 ds

/-- Run `delete (k-1)`, `delete (k-2)`, …, `delete 0` in that order. -/
def deleteDownFrom (dll : DLL) : Nat → Option DLL
  | 0 => some dll
  | k + 1 =>
    match delete dll (k : Int) with
    | .ok d => deleteDownFrom d k
    | _ => none

/-- The `traverse_dll` body: a do-while, so the payload of `t` is read
before the `t != NULL` test — on an empty list the first read
dereferences `NULL` (modelled as `none`). -/
def travLoop (s : Store) : Nat → Option Nat → Option (List String)
  | _, none => none
  | fuel, some a =>
    match lookupN s a with
    | none => none
    | some n =>
      match n.next with
      | none => some [n.data]
      | some b =>
        match fuel with
        | 0 => none
        | fuel' + 1 =>
          match travLoop s fuel' (some b) with
          | none => none
          | some ds => some (n.data :: ds)

/-- `traverse_dll`: the payloads printed in order, then the terminal
`"NULL"` sentinel. -/
def traverse_dll (dll : DLL) : Option (List String) :=
  match travLoop dll.store (dll.store.length + 1) dll.head with
  | none => none
  | some ds => some (ds ++ ["NULL"])

/-!  ## Representation predicate

`DSeg s pv cur as lst stop` says: starting at pointer `cur`, whose first
node's back link must be `pv`, the chain of addresses `as` is laid out
in `s` with consistent mutual links, the pointer after the last node is
`stop`, and `lst` is the pointer to the last node of the segment (`pv`
itself for an empty segment). -/

def DSeg (s : Store) : Option Nat → Option Nat → List Nat → Option Nat → Option Nat → Prop
  | pv, cur, [], lst, stop => cur = stop ∧ lst = pv
  | pv, cur, a :: as, lst, stop =>
    cur = some a ∧ ∃ n, lookupN s a = some n ∧ n.prev = pv ∧ DSeg s (some a) n.next as lst stop

/-- The list handle `dll` faithfully represents the chain of addresses
`as`: the stored head/tail/length agree with the chain and all addresses
are distinct allocations below the allocator counter. -/
def DLLRepr (dll : DLL) (as : List Nat) : Prop :=
  DSeg dll.store none dll.head as dll.tail none ∧
  dll.len = (as.length : Int) ∧ as.Nodup ∧ ∀ a ∈ as, a < dll.fresh

/-- The payloads stored at a list of addresses. -/
def datasOf (s : Store) : List Nat → Option (List String)
  | [] => some []
  | a :: as =>
    match lookupN s a with
    | none => none
    | some n =>
      match datasOf s as with
      | none => none
      | some ds => some (n.data :: ds)

/-- Zero-based position of the first occurrence of `target`, `-1` when
there is none. -/
def firstMatch (target : String) : List String → Int
  | [] => -1
  | d :: ds =>
    if d = target then 0
    else
      let r := firstMatch target ds
      if r = -1 then -1 else r + 1

/-- Bidirectional consistency along a chain of addresses: every two
consecutive nodes point at each other. -/
def BiLinked (s : Store) : List Nat → Prop
  | a :: b :: rest =>
    (∃ n, lookupN s a = some n ∧ n.next = some b) ∧
    (∃ m, lookupN s b = some m ∧ m.prev = some a) ∧
    BiLinked s (b :: rest)
  | _ => True

/-- The structural invariants exactly as the specification lists them:
emptiness iff both ends absent, and for `length ≥ 2` a chain matching
head/tail/length whose first node has no predecessor, whose last node
has no successor, and whose adjacent nodes are mutually linked. -/
def StatedInv (dll : DLL) : Prop :=
  (dll.len = 0 ↔ dll.head = none ∧ dll.tail = none) ∧
  (2 ≤ dll.len →
    ∃ as : List Nat,
      dll.head = as.head? ∧ dll.tail = as.getLast? ∧ dll.len = (as.length : Int) ∧
      (∃ a n, as.head? = some a ∧ lookupN dll.store a = some n ∧ n.prev = none) ∧
      (∃ a n, as.getLast? = some a ∧ lookupN dll.store a = some n ∧ n.next = none) ∧
      BiLinked dll.store as)

/-- The pointer reached after `k` forward steps along a chain laid out
as `as` followed by `stop`. -/
def ptrAt (as : List Nat) (stop : Option Nat) (k : Nat) : Option Nat :=
  match as.drop k with
  | [] => stop
  | a :: _ => some a

/-- The empty list state: head and tail absent, length 0. -/
def mtDLL : DLL := ⟨[], 0, none, none, 0⟩

/-- The list built by `create_doubly_linked_list "X"`. -/
def seedX : DLL := ⟨[(0, ⟨"X", none, none⟩)], 1, some 0, some 0, 1⟩

/-- The empty list as left behind by `delete(seedX, 0)`. -/
def mtX : DLL := ⟨[], 1, none, none, 0⟩

/-- The list built by `create_doubly_linked_list "Head"`. -/
def seedHead : DLL := ⟨[(0, ⟨"Head", none, none⟩)], 1, some 0, some 0, 1⟩

/-- The driver's list: `create "Head"` then `append "A"`. -/
def demoDLL : DLL :=
  ⟨[(1, ⟨"A", some 0, none⟩), (0, ⟨"Head", none, some 1⟩)], 2, some 0, some 1, 2⟩

/-- Payload used to exercise the fixed-buffer bound: 101 bytes. -/
def longText : String := String.mk (List.replicate 101 'a')

/-!  ## Store lemmas -/

theorem lookupN_cons (k : Nat) (n : Node) (s : Store) (b : Nat) :
    lookupN ((k, n) :: s) b = if b = k then some n else lookupN s b := rfl

theorem updN_cons (k : Nat) (n : Node) (s : Store) (a : Nat) (f : Node → Node) :
    updN ((k, n) :: s) a f =
      (if k = a then (k, f n) else (k, n)) :: updN s a f := by
  by_cases hk : k = a <;> simp [updN, hk]

theorem removeN_cons (k : Nat) (n : Node) (s : Store) (a : Nat) :
    removeN ((k, n) :: s) a =
      if k = a then removeN s a else (k, n) :: removeN s a := by
  by_cases hk : k = a <;> simp [removeN, hk, List.filter_cons]

theorem lookupN_updN (s : Store) (a : Nat) (f : Node → Node) (b : Nat) :
    lookupN (updN s a f) b = if b = a then (lookupN s a).map f else lookupN s b := by
  induction s with
  | nil => simp [updN, lookupN]
  | cons p s ih =>
    obtain ⟨k, n⟩ := p
    rw [updN_cons]
    by_cases hk : k = a
    · subst hk
      by_cases hb : b = k
      · subst hb
        simp [lookupN_cons]
      · simp [lookupN_cons, hb, ih]
    · by_cases hb : b = k
      · subst hb
        have hba : b ≠ a := hk
        simp [lookupN_cons, hk, hba]
      · simp [lookupN_cons, hk, hb, ih, Ne.symm hk]

theorem lookupN_removeN (s : Store) (a b : Nat) :
    lookupN (removeN s a) b = if b = a then none else lookupN s b := by
  induction s with
  | nil => simp [removeN, lookupN]
  | cons p s ih =>
    obtain ⟨k, n⟩ := p
    rw [removeN_cons]
    by_cases hk : k = a
    · subst hk
      by_cases hb : b = k
      · subst hb
        simp [lookupN_cons, ih]
      · simp [lookupN_cons, hb, ih]
    · by_cases hb : b = k
      · subst hb
        have hba : b ≠ a := hk
        simp [lookupN_cons, hba]
      · simp [lookupN_cons, hk, hb, ih]

theorem mem_keys_of_lookupN {s : Store} {a : Nat} {n : Node}
    (h : lookupN s a = some n) : a ∈ s.map Prod.fst := by
  induction s with
  | nil => simp [lookupN] at h
  | cons p s ih =>
    obtain ⟨k, m⟩ := p
    by_cases hk : a = k
    · subst hk
      simp
    · simp [lookupN, hk] at h
      simp [ih h]

/-!  ## Chain segment lemmas -/

theorem DSeg_nil_iff (s : Store) (pv cur lst stop : Option Nat) :
    DSeg s pv cur [] lst stop ↔ cur = stop ∧ lst = pv := Iff.rfl

theorem DSeg_cons_iff (s : Store) (pv cur lst stop : Option Nat) (a : Nat) (as : List Nat) :
    DSeg s pv cur (a :: as) lst stop ↔
      cur = some a ∧
        ∃ n, lookupN s a = some n ∧ n.prev = pv ∧ DSeg s (some a) n.next as lst stop :=
  Iff.rfl

theorem DSeg_append (s : Store) (pv cur lst stop : Option Nat) (xs ys : List Nat) :
    DSeg s pv cur (xs ++ ys) lst stop ↔
      ∃ pm mid, DSeg s pv cur xs pm mid ∧ DSeg s pm mid ys lst stop := by
  induction xs generalizing pv cur with
  | nil =>
    constructor
    · intro h
      exact ⟨pv, cur, ⟨rfl, rfl⟩, h⟩
    · rintro ⟨pm, mid, ⟨h1, h2⟩, h⟩
      subst h1; subst h2
      exact h
  | cons a xs ih =>
    simp only [List.cons_append, DSeg_cons_iff]
    constructor
    · rintro ⟨rfl, n, hn, hp, hrest⟩
      obtain ⟨pm, mid, h1, h2⟩ := (ih _ _).1 hrest
      exact ⟨pm, mid, ⟨rfl, n, hn, hp, h1⟩, h2⟩
    · rintro ⟨pm, mid, ⟨rfl, n, hn, hp, h1⟩, h2⟩
      exact ⟨rfl, n, hn, hp, (ih _ _).2 ⟨pm, mid, h1, h2⟩⟩

theorem DSeg_singleton_iff (s : Store) (pv cur lst stop : Option Nat) (a : Nat) :
    DSeg s pv cur [a] lst stop ↔
      cur = some a ∧
        ∃ n, lookupN s a = some n ∧ n.prev = pv ∧ n.next = stop ∧ lst = some a := by
  rw [DSeg_cons_iff]
  constructor
  · rintro ⟨rfl, n, hn, hp, hrest⟩
    rw [DSeg_nil_iff] at hrest
    exact ⟨rfl, n, hn, hp, hrest.1, hrest.2⟩
  · rintro ⟨rfl, n, hn, hp, hnx, hl⟩
    exact ⟨rfl, n, hn, hp, hnx, hl⟩

theorem DSeg_concat_iff (s : Store) (pv cur lst stop : Option Nat) (xs : List Nat) (L : Nat) :
    DSeg s pv cur (xs ++ [L]) lst stop ↔
      ∃ pm n, DSeg s pv cur xs pm (some L) ∧
        lookupN s L = some n ∧ n.prev = pm ∧ n.next = stop ∧ lst = some L := by
  rw [DSeg_append]
  constructor
  · rintro ⟨pm, mid, h1, h2⟩
    rw [DSeg_singleton_iff] at h2
    obtain ⟨rfl, n, hn, hp, hnx, hl⟩ := h2
    exact ⟨pm, n, h1, hn, hp, hnx, hl⟩
  · rintro ⟨pm, n, h1, hn, hp, hnx, hl⟩
    exact ⟨pm, some L, h1, (DSeg_singleton_iff ..).2 ⟨rfl, n, hn, hp, hnx, hl⟩⟩

theorem DSeg_frame {s s' : Store} {as : List Nat}
    (hs : ∀ a ∈ as, lookupN s' a = lookupN s a) :
    ∀ {pv cur lst stop}, DSeg s pv cur as lst stop → DSeg s' pv cur as lst stop := by
  induction as with
  | nil =>
    intro pv cur lst stop h
    exact h
  | cons a as ih =>
    intro pv cur lst stop h
    rw [DSeg_cons_iff] at h
    obtain ⟨rfl, n, hn, hp, hrest⟩ := h
    refine ⟨rfl, n, ?_, hp, ?_⟩
    · rw [hs a (by simp)]
      exact hn
    · exact ih (fun b hb => hs b (by simp [hb])) hrest

theorem DSeg_lookup_isSome {s : Store} {as : List Nat} :
    ∀ {pv cur lst stop}, DSeg s pv cur as lst stop →
      ∀ a ∈ as, (lookupN s a).isSome := by
  induction as with
  | nil =>
    intro pv cur lst stop _ a ha
    simp at ha
  | cons b as ih =>
    intro pv cur lst stop h a ha
    rw [DSeg_cons_iff] at h
    obtain ⟨rfl, n, hn, hp, hrest⟩ := h
    rcases List.mem_cons.1 ha with hab | hmem
    · subst hab
      simp [hn]
    · exact ih hrest a hmem

theorem ptrAt_nil (stop : Option Nat) (k : Nat) : ptrAt [] stop k = stop := by
  simp [ptrAt]

theorem ptrAt_cons_zero (a : Nat) (as : List Nat) (stop : Option Nat) :
    ptrAt (a :: as) stop 0 = some a := rfl

theorem ptrAt_cons_succ (a : Nat) (as : List Nat) (stop : Option Nat) (k : Nat) :
    ptrAt (a :: as) stop (k + 1) = ptrAt as stop k := rfl

theorem DSeg_walkPtr {s : Store} {as : List Nat} :
    ∀ {pv cur lst stop}, DSeg s pv cur as lst stop →
      ∀ k, k ≤ as.length → walkPtr s cur k = some (ptrAt as stop k) := by
  induction as with
  | nil =>
    intro pv cur lst stop h k hk
    rw [DSeg_nil_iff] at h
    have hk0 : k = 0 := Nat.le_zero.mp (by simpa using hk)
    subst hk0
    simp [walkPtr, ptrAt_nil, h.1]
  | cons a as ih =>
    intro pv cur lst stop h k hk
    rw [DSeg_cons_iff] at h
    obtain ⟨rfl, n, hn, hp, hrest⟩ := h
    cases k with
    | zero => simp [walkPtr, ptrAt_cons_zero]
    | succ k =>
      rw [ptrAt_cons_succ]
      have step : walkPtr s (some a) (k + 1) = walkPtr s n.next k := by
        simp [walkPtr, hn]
      rw [step]
      exact ih hrest k (by simpa using hk)

/-!  ## `append` preserves the representation -/

theorem DSeg_snoc {s : Store} {hd : Option Nat} {as : List Nat} {L f : Nat} {nd : Node}
    (hseg : DSeg s none hd as (some L) none)
    (hnodup : as.Nodup) (hbound : ∀ a ∈ as, a < f)
    (hprev : nd.prev = some L) (hnext : nd.next = none) :
    DSeg (updN ((f, nd) :: s) L (fun m => { m with next := some f })) none hd
      (as ++ [f]) (some f) none := by
  rcases List.eq_nil_or_concat as with rfl | ⟨xs, L', hconcat⟩
  · rw [DSeg_nil_iff] at hseg
    exact absurd hseg.2 (by simp)
  · rw [List.concat_eq_append] at hconcat
    subst hconcat
    rw [DSeg_concat_iff] at hseg
    obtain ⟨pm, nL, hxs, hnL, hnLp, hnLn, hLL⟩ := hseg
    have hLeq : L = L' := by injection hLL
    subst hLeq
    have hLf : L ≠ f := fun hc => absurd (hbound L (by simp)) (by omega)
    have hLxs : L ∉ xs := by
      rw [List.nodup_append] at hnodup
      intro hc
      exact hnodup.2.2 hc (by simp)
    have hsL : lookupN (updN ((f, nd) :: s) L (fun m => { m with next := some f })) L =
        some { nL with next := some f } := by
      rw [lookupN_updN]
      simp [lookupN_cons, hLf, hnL]
    have hsf : lookupN (updN ((f, nd) :: s) L (fun m => { m with next := some f })) f =
        some nd := by
      rw [lookupN_updN]
      simp [lookupN_cons, Ne.symm hLf]
    have hframe : ∀ a ∈ xs,
        lookupN (updN ((f, nd) :: s) L (fun m => { m with next := some f })) a =
          lookupN s a := by
      intro a ha
      have haL : a ≠ L := fun hc => hLxs (hc ▸ ha)
      have haf : a ≠ f := fun hc => absurd (hbound a (by simp [ha])) (by omega)
      rw [lookupN_updN]
      simp [lookupN_cons, haL, haf]
    rw [List.append_assoc]
    refine (DSeg_append ..).2 ⟨pm, some L, DSeg_frame hframe hxs, ?_⟩
    refine ⟨rfl, { nL with next := some f }, hsL, by simp [hnLp], ?_⟩
    exact (DSeg_singleton_iff ..).2 ⟨rfl, nd, hsf, hprev, hnext, rfl⟩

theorem append_ok {dll : DLL} {as : List Nat} {data : String}
    (h : DLLRepr dll as) (hsz : data.utf8ByteSize + 1 ≤ MAX_DATA_LEN) :
    ∃ dll', append dll data = some dll' ∧ DLLRepr dll' (as ++ [dll.fresh]) := by
  obtain ⟨s, f, hd0, tl0, ln⟩ := dll
  obtain ⟨hseg, hlen, hnodup, hbound⟩ := h
  have hcn : ∀ pv nx, create_node data pv nx = some ⟨data, pv, nx⟩ := by
    intro pv nx
    simp [create_node, hsz]
  simp only at hseg hlen hnodup hbound ⊢
  cases as with
  | nil =>
    rw [DSeg_nil_iff] at hseg
    obtain ⟨hhd, htl⟩ := hseg
    subst hhd
    refine ⟨⟨(f, ⟨data, none, none⟩) :: s, f + 1, some f, some f, ln + 1⟩,
      by simp [append, hcn], ?_, ?_, ?_, ?_⟩
    · exact (DSeg_singleton_iff ..).2
        ⟨rfl, ⟨data, none, none⟩, by simp [lookupN_cons], rfl, rfl, rfl⟩
    · simpa using hlen
    · simp
    · simp
  | cons a as' =>
    have hhd : hd0 = some a := ((DSeg_cons_iff ..).1 hseg).1
    subst hhd
    rcases List.eq_nil_or_concat (a :: as') with hnil | ⟨xs, L, hasL⟩
    · simp at hnil
    rw [List.concat_eq_append] at hasL
    have htl : tl0 = some L := by
      have hseg2 := hseg
      rw [hasL, DSeg_concat_iff] at hseg2
      obtain ⟨pm, nL, _, _, _, _, hl⟩ := hseg2
      exact hl
    subst htl
    have hsnoc : DSeg (updN ((f, ⟨data, some L, none⟩) :: s) L
        (fun m => { m with next := some f })) none (some a)
        ((a :: as') ++ [f]) (some f) none :=
      DSeg_snoc hseg hnodup hbound rfl rfl
    have hrep : DLLRepr ⟨updN ((f, ⟨data, some L, none⟩) :: s) L
        (fun m => { m with next := some f }), f + 1, some a, some f, ln + 1⟩
        ((a :: as') ++ [f]) := by
      refine ⟨hsnoc, ?_, ?_, ?_⟩
      · rw [hlen]
        simp only [List.length_append, List.length_cons, List.length_nil]
        push_cast
        ring
      · rw [List.nodup_append]
        refine ⟨hnodup, by simp, ?_⟩
        intro b hb
        have := hbound b hb
        simp
        omega
      · intro b hb
        show b < f + 1
        rcases List.mem_append.1 hb with hb | hb
        · have := hbound b hb
          omega
        · simp at hb
          omega
    by_cases hal : a = L
    · subst hal
      refine ⟨_, ?_, hrep⟩
      simp [append, hcn]
    · refine ⟨_, ?_, hrep⟩
      simp [append, hcn, hal]

/-!  ## `insert` (splice path) preserves the representation -/

theorem insert_ok {dll : DLL} {as : List Nat} {indx : Int} {data : String}
    (h : DLLRepr dll as) (h0 : 0 ≤ indx) (hlt : indx < dll.len)
    (hsz : data.utf8ByteSize + 1 ≤ MAX_DATA_LEN) :
    ∃ dll', insert dll indx data = OpResult.ok dll' ∧
      DLLRepr dll' (as.take indx.toNat ++ dll.fresh :: as.drop indx.toNat) ∧
      dll'.tail = dll.tail ∧
      dll'.head = (if indx = 0 then some dll.fresh else dll.head) ∧
      dll'.fresh = dll.fresh + 1 ∧ dll'.len = dll.len + 1 := by
  obtain ⟨s, f, hd0, tl0, ln⟩ := dll
  obtain ⟨hseg, hlen, hnodup, hbound⟩ := h
  simp only at hseg hlen hnodup hbound hlt ⊢
  have hcn : ∀ pv nx, create_node data pv nx = some ⟨data, pv, nx⟩ := by
    intro pv nx
    simp [create_node, hsz]
  have hk : indx.toNat < as.length := by omega
  rcases hdrop : as.drop indx.toNat with _ | ⟨t, r⟩
  · rw [List.drop_eq_nil_iff] at hdrop
    omega
  have hsplit : as.take indx.toNat ++ t :: r = as := by
    rw [← hdrop]
    exact List.take_append_drop indx.toNat as
  obtain ⟨pm, mid, hpre, hsuf⟩ :=
    (DSeg_append s none hd0 tl0 none (as.take indx.toNat) (t :: r)).1
      (by rw [hsplit]; exact hseg)
  rw [DSeg_cons_iff] at hsuf
  obtain ⟨hmid, tn, htn, htnp, hrest⟩ := hsuf
  have hwalk : walkPtr s hd0 indx.toNat = some (some t) := by
    rw [DSeg_walkPtr hseg indx.toNat (le_of_lt hk)]
    simp [ptrAt, hdrop]
  have htas : t ∈ as := by
    rw [← hsplit]
    simp
  have htf : t ≠ f := fun hc => absurd (hbound t htas) (by omega)
  have hras : ∀ a ∈ r, a ∈ as := by
    intro a ha
    rw [← hsplit]
    simp [ha]
  have hnodup2 := hnodup
  rw [← hsplit, List.nodup_append] at hnodup2
  have htr : t ∉ r := (List.nodup_cons.1 hnodup2.2.1).1
  have htake_t : t ∉ as.take indx.toNat := fun hc => hnodup2.2.2 hc (by simp)
  have htake_r : ∀ a ∈ as.take indx.toNat, a ∉ r := by
    intro a ha hc
    exact hnodup2.2.2 ha (by simp [hc])
  by_cases hidx0 : indx = 0
  · subst hidx0
    rw [Int.toNat_zero] at hdrop hsplit hwalk hk ⊢
    rw [List.drop_zero] at hdrop
    subst hdrop
    simp only [Int.toNat_zero, List.take_zero] at hpre
    rw [DSeg_nil_iff] at hpre
    obtain ⟨hmid0, hpm⟩ := hpre
    rw [hpm] at htnp
    refine ⟨⟨updN ((f, ⟨data, none, some t⟩) :: s) t (fun m => { m with prev := some f }),
      f + 1, some f, tl0, ln + 1⟩, ?_, ⟨?_, ?_, ?_, ?_⟩, rfl, by simp, rfl, rfl⟩
    · have h1 : ¬ (ln < (0 : Int)) := by omega
      have h2 : ¬ ((0 : Int) = ln) := by omega
      have h3 : ¬ ((0 : Int) < 0) := by omega
      simp [insert, h1, h2, h3, hwalk, htn, hcn, htnp]
    · refine ⟨rfl, ⟨data, none, some t⟩, ?_, rfl, ?_⟩
      · rw [lookupN_updN]
        simp [lookupN_cons, Ne.symm htf]
      · refine ⟨rfl, { tn with prev := some f }, ?_, by simp, ?_⟩
        · rw [lookupN_updN]
          simp [lookupN_cons, htf, htn]
        · refine DSeg_frame ?_ hrest
          intro a ha
          have haf : a ≠ f := fun hc => absurd (hbound a (hras a ha)) (by omega)
          have hat : a ≠ t := fun hc => htr (hc ▸ ha)
          rw [lookupN_updN]
          simp [lookupN_cons, hat, haf]
    · rw [hlen]
      simp only [List.take_zero, List.nil_append, List.length_cons]
      push_cast
      omega
    · simp only [List.take_zero, List.nil_append]
      refine List.nodup_cons.2 ⟨?_, hnodup⟩
      intro hc
      exact absurd (hbound f hc) (by omega)
    · intro b hb
      show b < f + 1
      simp only [List.take_zero, List.nil_append, List.mem_cons] at hb
      rcases hb with rfl | hb
      · omega
      · have := hbound b (by rw [← hsplit]; simpa using hb)
        omega
  · have hk1 : 1 ≤ indx := by omega
    have htklen : (as.take indx.toNat).length = indx.toNat := by
      rw [List.length_take]
      omega
    rcases List.eq_nil_or_concat (as.take indx.toNat) with htk | ⟨xs0, p, htk⟩
    · rw [htk] at htklen
      simp at htklen
      omega
    rw [List.concat_eq_append] at htk
    rw [htk, DSeg_concat_iff] at hpre
    obtain ⟨pm2, pn, hxs0, hpn, hpnp, hpnn, hpm⟩ := hpre
    rw [hpm] at htnp
    have hpas : p ∈ as := by
      rw [← hsplit, htk]
      simp
    have hpf : p ≠ f := fun hc => absurd (hbound p hpas) (by omega)
    have hpt : p ≠ t := fun hc => htake_t (hc ▸ (by rw [htk]; simp : p ∈ as.take indx.toNat))
    have hpr : p ∉ r := htake_r p (by rw [htk]; simp)
    have hxs0_sub : ∀ a ∈ xs0, a ∈ as.take indx.toNat := by
      intro a ha
      rw [htk]
      simp [ha]
    have hxs0p : p ∉ xs0 := by
      rw [htk, List.nodup_append] at hnodup2
      intro hc
      exact hnodup2.1.2.2 hc (by simp)
    -- the updated store
    refine ⟨⟨updN (updN ((f, ⟨data, some p, some t⟩) :: s) p
        (fun m => { m with next := some f })) t (fun m => { m with prev := some f }),
      f + 1, hd0, tl0, ln + 1⟩, ?_, ⟨?_, ?_, ?_, ?_⟩, rfl, by simp [hidx0], rfl, rfl⟩
    · have h1 : ¬ (ln < indx) := by omega
      have h2 : ¬ (indx = ln) := by omega
      have h3 : ¬ (indx < 0) := by omega
      simp [insert, h1, h2, h3, hidx0, hwalk, htn, hcn, htnp]
    · rw [htk, List.append_assoc]
      refine (DSeg_append ..).2 ⟨pm2, some p, ?_, ?_⟩
      · refine DSeg_frame ?_ hxs0
        intro a ha
        have hat : a ≠ t := fun hc => htake_t (hc ▸ hxs0_sub a ha)
        have hap : a ≠ p := fun hc => hxs0p (hc ▸ ha)
        have haf : a ≠ f := fun hc =>
          absurd (hbound a (by rw [← hsplit]; exact List.mem_append_left _ (hxs0_sub a ha)))
            (by omega)
        simp [lookupN_updN, lookupN_cons, hat, hap, haf]
      · refine ⟨rfl, { pn with next := some f }, ?_, by simp [hpnp], ?_⟩
        · simp [lookupN_updN, lookupN_cons, hpt, hpf, hpn]
        · refine ⟨rfl, ⟨data, some p, some t⟩, ?_, rfl, ?_⟩
          · simp [lookupN_updN, lookupN_cons, Ne.symm htf, Ne.symm hpf]
          · refine ⟨rfl, { tn with prev := some f }, ?_, by simp, ?_⟩
            · simp [lookupN_updN, lookupN_cons, htf, Ne.symm hpt, htn]
            · refine DSeg_frame ?_ hrest
              intro a ha
              have haf : a ≠ f := fun hc => absurd (hbound a (hras a ha)) (by omega)
              have hat : a ≠ t := fun hc => htr (hc ▸ ha)
              have hap : a ≠ p := fun hc => hpr (hc ▸ ha)
              simp [lookupN_updN, lookupN_cons, hat, hap, haf]
    · have hlsp := congrArg List.length hsplit
      simp only [List.length_append, List.length_cons] at hlsp
      rw [hlen]
      simp only [List.length_append, List.length_cons]
      push_cast
      omega
    · have hfin : f ∉ as.take indx.toNat ++ t :: r := by
        rw [hsplit]
        intro hc
        exact absurd (hbound f hc) (by omega)
      have : (as.take indx.toNat ++ t :: r).Nodup := by
        rw [hsplit]
        exact hnodup
      -- insert f in the middle keeps nodup
      rw [List.nodup_append] at this ⊢
      refine ⟨this.1, ?_, ?_⟩
      · refine List.nodup_cons.2 ⟨?_, this.2.1⟩
        intro hc
        exact hfin (List.mem_append_right _ (by simp [hc]))
      · intro a ha
        have hne : a ≠ f := fun hc =>
          hfin (List.mem_append_left _ (hc ▸ ha))
        intro hc
        rcases List.mem_cons.1 hc with hc | hc
        · exact hne hc
        · exact this.2.2 ha (by simp [hc])
    · intro b hb
      show b < f + 1
      rcases List.mem_append.1 hb with hb | hb
      · have := hbound b (by rw [← hsplit]; exact List.mem_append_left _ hb)
        omega
      · rcases List.mem_cons.1 hb with rfl | hb
        · omega
        · have := hbound b (by rw [← hsplit]; exact List.mem_append_right _ (by simp [hb]))
          omega

/-!  ## `delete` preserves the representation -/

theorem delete_ok {dll : DLL} {as : List Nat} {indx : Int}
    (h : DLLRepr dll as) (h0 : 0 ≤ indx) (hlt : indx < dll.len) :
    ∃ dll', delete dll indx = OpResult.ok dll' ∧
      DLLRepr dll' (as.take indx.toNat ++ as.drop (indx.toNat + 1)) ∧
      dll'.fresh = dll.fresh ∧ dll'.len = dll.len - 1 ∧
      ∀ b ∈ as.take indx.toNat ++ as.drop (indx.toNat + 1),
        (lookupN dll'.store b).map Node.data = (lookupN dll.store b).map Node.data := by
  obtain ⟨s, f, hd0, tl0, ln⟩ := dll
  obtain ⟨hseg, hlen, hnodup, hbound⟩ := h
  simp only at hseg hlen hnodup hbound hlt ⊢
  have hk : indx.toNat < as.length := by omega
  rcases hdrop : as.drop indx.toNat with _ | ⟨t, r⟩
  · rw [List.drop_eq_nil_iff] at hdrop
    omega
  have hdrop1 : as.drop (indx.toNat + 1) = r := by
    have h1 : as.drop (indx.toNat + 1) = (as.drop indx.toNat).drop 1 := by
      rw [List.drop_drop]
    rw [h1, hdrop]
    rfl
  have hsplit : as.take indx.toNat ++ t :: r = as := by
    rw [← hdrop]
    exact List.take_append_drop indx.toNat as
  obtain ⟨pm, mid, hpre, hsuf⟩ :=
    (DSeg_append s none hd0 tl0 none (as.take indx.toNat) (t :: r)).1
      (by rw [hsplit]; exact hseg)
  rw [DSeg_cons_iff] at hsuf
  obtain ⟨hmid, tn, htn, htnp, hrest⟩ := hsuf
  have hwalk : walkPtr s hd0 indx.toNat = some (some t) := by
    rw [DSeg_walkPtr hseg indx.toNat (le_of_lt hk)]
    simp [ptrAt, hdrop]
  have htas : t ∈ as := by
    rw [← hsplit]
    simp
  have hnodup2 := hnodup
  rw [← hsplit, List.nodup_append] at hnodup2
  have htr : t ∉ r := (List.nodup_cons.1 hnodup2.2.1).1
  have hrnodup : r.Nodup := (List.nodup_cons.1 hnodup2.2.1).2
  have htake_t : t ∉ as.take indx.toNat := fun hc => hnodup2.2.2 hc (by simp)
  have htake_r : ∀ a ∈ as.take indx.toNat, a ∉ r := by
    intro a ha hc
    exact hnodup2.2.2 ha (by simp [hc])
  have hrlen := congrArg List.length hdrop
  rw [List.length_drop, List.length_cons] at hrlen
  have g1 : ¬ (ln ≤ indx) := by omega
  have g2 : ¬ (indx < 0) := by omega
  by_cases hln1 : ln = 1
  · -- sole remaining node: clear both ends
    have hk0 : indx.toNat = 0 := by omega
    have hr : r = [] := by
      have : r.length = 0 := by omega
      exact List.length_eq_zero.1 this
    subst hr
    refine ⟨⟨removeN s t, f, none, none, ln - 1⟩, ?_, ⟨?_, ?_, ?_, ?_⟩, rfl, rfl, ?_⟩
    · have g1b : ¬ ((1 : Int) ≤ indx) := by omega
      simp [delete, g1, g2, g1b, hwalk, hln1]
    · simp only [hdrop1]
      simp only [hk0, List.take_zero, List.append_nil]
      exact ⟨rfl, rfl⟩
    · simp only [hdrop1]
      simp only [hk0, List.take_zero, List.append_nil, List.length_nil]
      omega
    · simp only [hdrop1]
      simp [hk0]
    · simp only [hdrop1]
      simp [hk0]
    · simp only [hdrop1]
      simp [hk0]
  · by_cases hidx0 : indx = 0
    · -- delete at the head of a list with at least two nodes
      subst hidx0
      rw [Int.toNat_zero] at hdrop hdrop1 hsplit hwalk hk htake_t htake_r hrlen ⊢
      rcases r with _ | ⟨b1, r'⟩
      · simp at hrlen
        omega
      rw [DSeg_cons_iff] at hrest
      obtain ⟨htnn, nb, hnb, hnbp, hrest2⟩ := hrest
      have hb1r : b1 ∉ r' := (List.nodup_cons.1 hrnodup).1
      have htb1 : t ≠ b1 := fun hc => htr (hc ▸ List.mem_cons_self b1 r')
      have htr' : t ∉ r' := fun hc => htr (List.mem_cons_of_mem b1 hc)
      refine ⟨⟨removeN (updN s b1 (fun m => { m with prev := none })) t, f,
        some b1, tl0, ln - 1⟩, ?_, ⟨?_, ?_, ?_, ?_⟩, rfl, rfl, ?_⟩
      · simp [delete, g1, g2, hwalk, hln1, htn, htnn]
      · simp only [List.take_zero, hdrop1, List.nil_append, List.drop_zero]
        refine ⟨rfl, { nb with prev := none }, ?_, rfl, ?_⟩
        · simp [lookupN_removeN, lookupN_updN, Ne.symm htb1, hnb]
        · refine DSeg_frame ?_ hrest2
          intro a ha
          have hat : a ≠ t := fun hc => htr' (hc ▸ ha)
          have hab1 : a ≠ b1 := fun hc => hb1r (hc ▸ ha)
          simp [lookupN_removeN, lookupN_updN, hat, hab1]
      · simp only [List.take_zero, hdrop1, List.nil_append, List.length_cons]
        rw [hlen, ← hsplit]
        simp only [List.take_zero, List.nil_append, List.length_cons]
        push_cast
        omega
      · simp only [List.take_zero, hdrop1, List.nil_append]
        exact hrnodup
      · intro b hb
        show b < f
        simp only [List.take_zero, hdrop1, List.nil_append] at hb
        exact hbound b (by rw [← hsplit]; simp [hb])
      · intro b hb
        simp only [List.take_zero, hdrop1, List.nil_append] at hb
        have hbt : b ≠ t := by
          rcases List.mem_cons.1 hb with rfl | hb'
          · exact Ne.symm htb1
          · exact fun hc => htr' (hc ▸ hb')
        by_cases hbb1 : b = b1
        · subst hbb1
          simp [lookupN_removeN, lookupN_updN, hbt, hnb]
        · simp [lookupN_removeN, lookupN_updN, hbt, hbb1]
    · have hk1 : 1 ≤ indx := by omega
      have htklen : (as.take indx.toNat).length = indx.toNat := by
        rw [List.length_take]
        omega
      rcases List.eq_nil_or_concat (as.take indx.toNat) with htk | ⟨xs0, p, htk⟩
      · rw [htk] at htklen
        simp at htklen
        omega
      rw [List.concat_eq_append] at htk
      rw [htk, DSeg_concat_iff] at hpre
      obtain ⟨pm2, pn, hxs0, hpn, hpnp, hpnn, hpm⟩ := hpre
      rw [hpm] at htnp
      have hpas : p ∈ as := by
        rw [← hsplit, htk]
        simp
      have hpt : p ≠ t := fun hc =>
        htake_t (hc ▸ (by rw [htk]; simp : p ∈ as.take indx.toNat))
      have hpr : p ∉ r := htake_r p (by rw [htk]; simp)
      have hxs0_sub : ∀ a ∈ xs0, a ∈ as.take indx.toNat := by
        intro a ha
        rw [htk]
        simp [ha]
      have hxs0p : p ∉ xs0 := by
        have := hnodup2.1
        rw [htk, List.nodup_append] at this
        intro hc
        exact this.2.2 hc (by simp)
      have hxs0_frame_mem : ∀ a ∈ xs0, a ≠ t ∧ a ≠ p ∧ a ∉ r := by
        intro a ha
        exact ⟨fun hc => htake_t (hc ▸ hxs0_sub a ha),
          fun hc => hxs0p (hc ▸ ha),
          htake_r a (hxs0_sub a ha)⟩
      by_cases hC : indx = ln - 1
      · -- delete at the tail of a list with at least two nodes
        have hr : r = [] := by
          have : r.length = 0 := by omega
          exact List.length_eq_zero.1 this
        subst hr
        rw [DSeg_nil_iff] at hrest
        obtain ⟨htnn, htl⟩ := hrest
        refine ⟨⟨removeN (updN s p (fun m => { m with next := none })) t, f,
          hd0, some p, ln - 1⟩, ?_, ⟨?_, ?_, ?_, ?_⟩, rfl, rfl, ?_⟩
        · have hCp : (indx = ln - 1) ↔ True := iff_of_true hC trivial
          simp [delete, g1, g2, hwalk, hln1, htn, hidx0, hCp, htnp]
        · rw [htk, hdrop1]
          simp only [List.append_nil]
          refine (DSeg_concat_iff ..).2 ⟨pm2, { pn with next := none }, ?_, ?_, by simp [hpnp],
            by simp, rfl⟩
          · refine DSeg_frame ?_ hxs0
            intro a ha
            obtain ⟨hat, hap, _⟩ := hxs0_frame_mem a ha
            simp [lookupN_removeN, lookupN_updN, hat, hap]
          · simp [lookupN_removeN, lookupN_updN, hpt, hpn]
        · rw [htk, hdrop1]
          simp only [List.append_nil, List.length_append, List.length_cons, List.length_nil]
          have := congrArg List.length htk
          rw [htklen] at this
          simp only [List.length_append, List.length_cons, List.length_nil] at this
          push_cast
          omega
        · rw [htk, hdrop1]
          simp only [List.append_nil]
          have hnt := hnodup2.1
          rw [htk] at hnt
          exact hnt
        · intro b hb
          show b < f
          rw [htk, hdrop1] at hb
          simp only [List.append_nil] at hb
          exact hbound b (by rw [← hsplit, htk]; exact List.mem_append_left _ hb)
        · intro b hb
          rw [htk, hdrop1] at hb
          simp only [List.append_nil] at hb
          have hbt : b ≠ t := by
            rcases List.mem_append.1 hb with hb' | hb'
            · exact fun hc => htake_t (by rw [htk]; simp [hc ▸ hb'])
            · simp at hb'
              subst hb'
              exact hpt
          by_cases hbp : b = p
          · subst hbp
            simp [lookupN_removeN, lookupN_updN, hbt, hpn]
          · simp [lookupN_removeN, lookupN_updN, hbt, hbp]
      · -- delete in the middle
        rcases r with _ | ⟨b1, r'⟩
        · exfalso
          have : (0 : Int) = ln - 1 - indx := by
            have := hrlen
            simp only [List.length_nil] at this
            omega
          omega
        rw [DSeg_cons_iff] at hrest
        obtain ⟨htnn, nb, hnb, hnbp, hrest2⟩ := hrest
        have hb1r : b1 ∉ r' := (List.nodup_cons.1 hrnodup).1
        have htb1 : t ≠ b1 := fun hc => htr (hc ▸ List.mem_cons_self b1 r')
        have htr' : t ∉ r' := fun hc => htr (List.mem_cons_of_mem b1 hc)
        have hpb1 : p ≠ b1 := fun hc => hpr (hc ▸ List.mem_cons_self b1 r')
        have hpr' : p ∉ r' := fun hc => hpr (List.mem_cons_of_mem b1 hc)
        refine ⟨⟨removeN (updN (updN s p (fun m => { m with next := some b1 }))
            b1 (fun m => { m with prev := some p })) t, f,
          hd0, tl0, ln - 1⟩, ?_, ⟨?_, ?_, ?_, ?_⟩, rfl, rfl, ?_⟩
        · simp [delete, g1, g2, hwalk, hln1, htn, hidx0, hC, htnp, htnn]
        · rw [htk, hdrop1, List.append_assoc]
          refine (DSeg_append ..).2 ⟨pm2, some p, ?_, ?_⟩
          · refine DSeg_frame ?_ hxs0
            intro a ha
            obtain ⟨hat, hap, har⟩ := hxs0_frame_mem a ha
            have hab1 : a ≠ b1 := fun hc => har (hc ▸ List.mem_cons_self b1 r')
            simp [lookupN_removeN, lookupN_updN, hat, hap, hab1]
          · refine ⟨rfl, { pn with next := some b1 }, ?_, by simp [hpnp], ?_⟩
            · simp [lookupN_removeN, lookupN_updN, hpt, hpb1, hpn]
            · refine ⟨rfl, { nb with prev := some p }, ?_, by simp, ?_⟩
              · simp [lookupN_removeN, lookupN_updN, Ne.symm htb1, Ne.symm hpb1, hnb]
              · refine DSeg_frame ?_ hrest2
                intro a ha
                have hat : a ≠ t := fun hc => htr' (hc ▸ ha)
                have hab1 : a ≠ b1 := fun hc => hb1r (hc ▸ ha)
                have hap : a ≠ p := fun hc => hpr' (hc ▸ ha)
                simp [lookupN_removeN, lookupN_updN, hat, hab1, hap]
        · have hlsp := congrArg List.length hsplit
          simp only [List.length_append, List.length_cons] at hlsp
          have hlk := congrArg List.length htk
          simp only [List.length_append, List.length_cons, List.length_nil] at hlk
          rw [htk, hdrop1]
          simp only [List.length_append, List.length_cons, List.length_nil]
          push_cast
          omega
        · rw [htk, hdrop1]
          rw [List.nodup_append]
          have hnt := hnodup2.1
          rw [htk] at hnt
          refine ⟨hnt, hrnodup, ?_⟩
          intro a ha hc
          have ha' : a ∈ as.take indx.toNat := by rw [htk]; exact ha
          exact htake_r a ha' hc
        · intro b hb
          show b < f
          rw [htk, hdrop1] at hb
          refine hbound b ?_
          rw [← hsplit, htk]
          rcases List.mem_append.1 hb with hb' | hb'
          · exact List.mem_append_left _ hb'
          · exact List.mem_append_right _ (List.mem_cons_of_mem t hb')
        · intro b hb
          rw [htk, hdrop1] at hb
          have hbt : b ≠ t := by
            rcases List.mem_append.1 hb with hb' | hb'
            · exact fun hc => htake_t (by rw [htk]; exact hc ▸ hb')
            · exact fun hc => htr (hc ▸ hb')
          by_cases hbp : b = p
          · subst hbp
            simp [lookupN_removeN, lookupN_updN, hbt, hpb1, hpn]
          · by_cases hbb1 : b = b1
            · subst hbb1
              simp [lookupN_removeN, lookupN_updN, hbt, hnb, Ne.symm hpb1]
            · simp [lookupN_removeN, lookupN_updN, hbt, hbp, hbb1]

/-!  ## `find` returns the index of the first match -/

theorem nodup_lookup_length_le {s : Store} {as : List Nat}
    (hnd : as.Nodup) (hlk : ∀ a ∈ as, (lookupN s a).isSome) :
    as.length ≤ s.length := by
  have hsub : as ⊆ s.map Prod.fst := by
    intro a ha
    obtain ⟨n, hn⟩ := Option.isSome_iff_exists.1 (hlk a ha)
    exact mem_keys_of_lookupN hn
  calc as.length = as.toFinset.card := (List.toFinset_card_of_nodup hnd).symm
    _ ≤ (s.map Prod.fst).toFinset.card := Finset.card_le_card (by
        intro x hx
        rw [List.mem_toFinset] at hx ⊢
        exact hsub hx)
    _ ≤ (s.map Prod.fst).length := (s.map Prod.fst).toFinset_card_le
    _ = s.length := List.length_map _ _

theorem firstMatch_nonneg_or (target : String) (ds : List String) :
    0 ≤ firstMatch target ds ∨ firstMatch target ds = -1 := by
  induction ds with
  | nil => exact Or.inr rfl
  | cons d ds ih =>
    by_cases hd : d = target
    · left
      simp [firstMatch, hd]
    · rcases ih with h | h
      · left
        have hne : ¬ firstMatch target ds = -1 := by omega
        simp only [firstMatch, if_neg hd, if_neg hne]
        omega
      · right
        simp [firstMatch, hd, h]

theorem findLoop_spec {s : Store} {target : String} {as : List Nat} :
    ∀ {pv cur lst : Option Nat} {ds : List String} {i : Int} {fuel : Nat},
      DSeg s pv cur as lst none → datasOf s as = some ds → as.length ≤ fuel →
      findLoop s target fuel cur i =
        some (if firstMatch target ds = -1 then -1 else firstMatch target ds + i) := by
  induction as with
  | nil =>
    intro pv cur lst ds i fuel hseg hds _
    rw [DSeg_nil_iff] at hseg
    obtain rfl : ds = [] := by
      simpa [datasOf] using hds.symm
    simp [findLoop, hseg.1, firstMatch]
  | cons a as ih =>
    intro pv cur lst ds i fuel hseg hds hfuel
    rw [DSeg_cons_iff] at hseg
    obtain ⟨rfl, n, hn, hp, hrest⟩ := hseg
    rw [datasOf] at hds
    rw [hn] at hds
    rcases hds2 : datasOf s as with _ | ds'
    · rw [hds2] at hds
      simp at hds
    rw [hds2] at hds
    simp at hds
    subst hds
    by_cases hmatch : n.data = target
    · simp [findLoop, hn, hmatch, firstMatch]
    · have hne : ¬ (n.data = target) := hmatch
      rcases fuel with _ | fuel'
      · simp at hfuel
      have hstep : findLoop s target (fuel' + 1) (some a) i =
          findLoop s target fuel' n.next (i + 1) := by
        simp [findLoop, hn, hne]
      rw [hstep, ih hrest hds2 (by simpa using hfuel)]
      have hfm : firstMatch target (n.data :: ds') =
          (if firstMatch target ds' = -1 then (-1 : Int)
           else firstMatch target ds' + 1) := by
        simp [firstMatch, hne]
      rw [hfm]
      by_cases hr : firstMatch target ds' = -1
      · simp [hr]
      · have hge : 0 ≤ firstMatch target ds' := by
          rcases firstMatch_nonneg_or target ds' with h | h
          · exact h
          · exact absurd h hr
        have h1 : ¬ (firstMatch target ds' + 1 = -1) := by omega
        simp only [if_neg hr, if_neg h1]
        congr 1
        ring

theorem find_ok {dll : DLL} {as : List Nat} {ds : List String} {target : String}
    (h : DLLRepr dll as) (hds : datasOf dll.store as = some ds) :
    find dll target = some (firstMatch target ds) := by
  obtain ⟨hseg, hlen, hnodup, hbound⟩ := h
  have hfuel : as.length ≤ dll.store.length + 1 :=
    le_trans (nodup_lookup_length_le hnodup (DSeg_lookup_isSome hseg)) (by omega)
  rw [find, findLoop_spec hseg hds hfuel]
  by_cases hfm : firstMatch target ds = -1 <;> simp [hfm]

/-!  ## Payload bookkeeping -/

theorem datasOf_congr {s s' : Store} {as : List Nat}
    (h : ∀ a ∈ as, (lookupN s' a).map Node.data = (lookupN s a).map Node.data) :
    datasOf s' as = datasOf s as := by
  induction as with
  | nil => rfl
  | cons a as ih =>
    have ha := h a (by simp)
    have hrec := ih (fun b hb => h b (List.mem_cons_of_mem a hb))
    rcases hs : lookupN s a with _ | n <;> rcases hs' : lookupN s' a with _ | n'
    · simp [datasOf, hs, hs']
    · rw [hs, hs'] at ha
      simp at ha
    · rw [hs, hs'] at ha
      simp at ha
    · rw [hs, hs'] at ha
      simp at ha
      simp [datasOf, hs, hs', ha, hrec]

theorem datasOf_take_drop {s : Store} :
    ∀ (as : List Nat) (ds : List String) (k : Nat),
      datasOf s as = some ds →
      datasOf s (as.take k ++ as.drop (k + 1)) = some (ds.take k ++ ds.drop (k + 1)) := by
  intro as
  induction as with
  | nil =>
    intro ds k h
    simp [datasOf] at h
    subst h
    simp [datasOf]
  | cons a as ih =>
    intro ds k h
    rw [datasOf] at h
    rcases hs : lookupN s a with _ | n
    · rw [hs] at h
      simp at h
    rw [hs] at h
    rcases hds : datasOf s as with _ | ds'
    · rw [hds] at h
      simp at h
    rw [hds] at h
    simp at h
    subst h
    cases k with
    | zero =>
      simpa [List.drop_succ_cons] using hds
    | succ k =>
      simp only [List.take_succ_cons, List.drop_succ_cons, List.cons_append]
      rw [datasOf, hs, ih ds' k hds]

theorem datasOf_length {s : Store} :
    ∀ {as : List Nat} {ds : List String}, datasOf s as = some ds → ds.length = as.length := by
  intro as
  induction as with
  | nil =>
    intro ds h
    simp [datasOf] at h
    subst h
    rfl
  | cons a as ih =>
    intro ds h
    rw [datasOf] at h
    rcases hs : lookupN s a with _ | n
    · rw [hs] at h
      simp at h
    rw [hs] at h
    rcases hds : datasOf s as with _ | ds'
    · rw [hds] at h
      simp at h
    rw [hds] at h
    simp at h
    subst h
    simp [ih hds]

/-!  ## The stated invariants follow from representability -/

theorem BiLinked_cons2_iff (s : Store) (a b : Nat) (rest : List Nat) :
    BiLinked s (a :: b :: rest) ↔
      (∃ n, lookupN s a = some n ∧ n.next = some b) ∧
      (∃ m, lookupN s b = some m ∧ m.prev = some a) ∧ BiLinked s (b :: rest) :=
  Iff.rfl

theorem BiLinked_of_DSeg {s : Store} {as : List Nat} :
    ∀ {pv cur lst stop}, DSeg s pv cur as lst stop → BiLinked s as := by
  induction as with
  | nil =>
    intro pv cur lst stop _
    trivial
  | cons a as ih =>
    intro pv cur lst stop h
    rw [DSeg_cons_iff] at h
    obtain ⟨rfl, n, hn, hp, hrest⟩ := h
    cases as with
    | nil => trivial
    | cons b bs =>
      have hrest2 := hrest
      rw [DSeg_cons_iff] at hrest2
      obtain ⟨hnx, m, hm, hmp, _⟩ := hrest2
      exact (BiLinked_cons2_iff ..).2 ⟨⟨n, hn, hnx⟩, ⟨m, hm, hmp⟩, ih hrest⟩

theorem StatedInv_of_repr {dll : DLL} {as : List Nat} (h : DLLRepr dll as) :
    StatedInv dll := by
  obtain ⟨hseg, hlen, hnodup, hbound⟩ := h
  constructor
  · cases as with
    | nil =>
      rw [DSeg_nil_iff] at hseg
      constructor
      · intro _
        exact ⟨hseg.1, hseg.2⟩
      · intro _
        rw [hlen]
        simp
    | cons a as' =>
      constructor
      · intro h0
        rw [hlen] at h0
        simp only [List.length_cons] at h0
        omega
      · intro hht
        have hh := ((DSeg_cons_iff ..).1 hseg).1
        rw [hht.1] at hh
        simp at hh
  · intro h2
    cases as with
    | nil =>
      rw [hlen] at h2
      simp at h2
    | cons a as' =>
      have hh : dll.head = some a := ((DSeg_cons_iff ..).1 hseg).1
      rcases List.eq_nil_or_concat (a :: as') with hnil | ⟨xs, L, hasL⟩
      · simp at hnil
      rw [List.concat_eq_append] at hasL
      have hseg2 := hseg
      rw [hasL, DSeg_concat_iff] at hseg2
      obtain ⟨pmL, nL, hxs, hnL, hnLp, hnLn, hLl⟩ := hseg2
      refine ⟨a :: as', by simp [hh], ?_, hlen, ?_, ?_, BiLinked_of_DSeg hseg⟩
      · rw [hasL, List.getLast?_concat]
        exact hLl
      · refine ⟨a, ?_⟩
        have := (DSeg_cons_iff ..).1 hseg
        obtain ⟨_, n, hn, hp, _⟩ := this
        exact ⟨n, by simp, hn, hp⟩
      · refine ⟨L, nL, ?_, hnL, hnLn⟩
        rw [hasL, List.getLast?_concat]

/-!  ## Round-trip lemmas -/

theorem appendAll_ok {ds : List String} :
    ∀ {dll : DLL} {as : List Nat}, DLLRepr dll as →
      (∀ d ∈ ds, d.utf8ByteSize + 1 ≤ MAX_DATA_LEN) →
      ∃ dll' as', appendAll dll ds = some dll' ∧ DLLRepr dll' as' ∧
        as'.length = as.length + ds.length := by
  induction ds with
  | nil =>
    intro dll as h _
    exact ⟨dll, as, rfl, h, by simp⟩
  | cons d ds ih =>
    intro dll as h hsz
    obtain ⟨dll2, happ, hrep2⟩ := append_ok h (hsz d (by simp))
    obtain ⟨dll', as', hall, hrep', hlen'⟩ := ih hrep2 (fun x hx => hsz x (by simp [hx]))
    refine ⟨dll', as', ?_, hrep', ?_⟩
    · rw [appendAll, happ]
      exact hall
    · rw [hlen']
      simp only [List.length_append, List.length_cons, List.length_nil]
      omega

theorem deleteDownFrom_ok {N : Nat} :
    ∀ {dll : DLL} {as : List Nat}, DLLRepr dll as → as.length = N →
      ∃ dll', deleteDownFrom dll N = some dll' ∧ DLLRepr dll' [] := by
  induction N with
  | zero =>
    intro dll as h hN
    have hnil : as = [] := List.length_eq_zero.1 hN
    subst hnil
    exact ⟨dll, rfl, h⟩
  | succ k ih =>
    intro dll as h hN
    have hlt : (k : Int) < dll.len := by
      rw [h.2.1]
      omega
    obtain ⟨dll', hdel, hrep', _, _, _⟩ := delete_ok h (by omega) hlt
    have htoNat : ((k : Int)).toNat = k := by simp
    rw [htoNat] at hrep'
    have hlen2 : (as.take k ++ as.drop (k + 1)).length = k := by
      simp only [List.length_append, List.length_take, List.length_drop, hN]
      omega
    obtain ⟨dll'', hdd, hrep''⟩ := ih hrep' hlen2
    refine ⟨dll'', ?_, hrep''⟩
    rw [deleteDownFrom, hdel]
    exact hdd

/-!  ## The first-match index is what `find` is specified to return -/

theorem firstMatch_spec (target : String) (ds : List String) :
    (firstMatch target ds = -1 ∧ target ∉ ds) ∨
      (0 ≤ firstMatch target ds ∧ ds.get? (firstMatch target ds).toNat = some target ∧
        target ∉ ds.take (firstMatch target ds).toNat) := by
  induction ds with
  | nil =>
    left
    simp [firstMatch]
  | cons d ds ih =>
    by_cases hd : d = target
    · right
      subst hd
      simp [firstMatch]
    · rcases ih with ⟨h1, h2⟩ | ⟨h1, h2, h3⟩
      · left
        refine ⟨by simp [firstMatch, hd, h1], ?_⟩
        intro hc
        rcases List.mem_cons.1 hc with hc | hc
        · exact hd hc.symm
        · exact h2 hc
      · right
        have hne : ¬ firstMatch target ds = -1 := by omega
        have hfm : firstMatch target (d :: ds) = firstMatch target ds + 1 := by
          simp only [firstMatch, if_neg hd, if_neg hne]
        have ht : (firstMatch target ds + 1).toNat = (firstMatch target ds).toNat + 1 := by
          omega
        rw [hfm, ht]
        refine ⟨by omega, by simpa using h2, ?_⟩
        rw [List.take_succ_cons]
        intro hc
        rcases List.mem_cons.1 hc with hc | hc
        · exact hd hc.symm
        · exact h3 hc

/-!  ## Concrete sample states -/

theorem mtDLL_repr : DLLRepr mtDLL [] :=
  ⟨⟨rfl, rfl⟩, by decide, by simp, by simp⟩

theorem demoDLL_repr : DLLRepr demoDLL [0, 1] := by
  refine ⟨?_, by decide, by decide, by decide⟩
  exact ⟨rfl, ⟨"Head", none, some 1⟩, rfl, rfl, rfl,
    ⟨"A", some 0, none⟩, rfl, rfl, rfl, rfl⟩

theorem demoDLL_datas : datasOf demoDLL.store [0, 1] = some ["Head", "A"] := by
  decide

/-!  ## Claim theorems -/

/-- C1: every public mutating operation — `append`, `insert` with a valid
index (`0 ≤ index ≤ length`), `delete` with a valid index
(`0 ≤ index < length`) — carried out on a well-formed list state with a
payload that fits the node buffer, completes normally and preserves the
structural invariants: the result is again a well-formed chain, and the
stated invariants (`length = 0` iff head and tail absent; for
`length ≥ 2` head's prev absent, tail's next absent, and adjacent nodes
mutually linked) hold of it. -/
theorem C1_mutators_preserve_invariants {dll : DLL} {as : List Nat}
    (h : DLLRepr dll as) :
    (∀ data : String, data.utf8ByteSize + 1 ≤ MAX_DATA_LEN →
      ∃ dll' as', append dll data = some dll' ∧ DLLRepr dll' as' ∧ StatedInv dll') ∧
    (∀ (indx : Int) (data : String), 0 ≤ indx → indx ≤ dll.len →
      data.utf8ByteSize + 1 ≤ MAX_DATA_LEN →
      ∃ dll' as', insert dll indx data = OpResult.ok dll' ∧ DLLRepr dll' as' ∧
        StatedInv dll') ∧
    (∀ indx : Int, 0 ≤ indx → indx < dll.len →
      ∃ dll' as', delete dll indx = OpResult.ok dll' ∧ DLLRepr dll' as' ∧
        StatedInv dll') := by
  refine ⟨?_, ?_, ?_⟩
  · intro data hsz
    obtain ⟨dll', h1, h2⟩ := append_ok h hsz
    exact ⟨dll', _, h1, h2, StatedInv_of_repr h2⟩
  · intro indx data h0 hle hsz
    by_cases heq : indx = dll.len
    · subst heq
      obtain ⟨dll', h1, h2⟩ := append_ok h hsz
      refine ⟨dll', _, ?_, h2, StatedInv_of_repr h2⟩
      simp [insert, h1]
    · have hlt : indx < dll.len := lt_of_le_of_ne hle heq
      obtain ⟨dll', h1, h2, _⟩ := insert_ok h h0 hlt hsz
      exact ⟨dll', _, h1, h2, StatedInv_of_repr h2⟩
  · intro indx h0 hlt
    obtain ⟨dll', h1, h2, _⟩ := delete_ok h h0 hlt
    exact ⟨dll', _, h1, h2, StatedInv_of_repr h2⟩

theorem C1_witness :
    DLLRepr demoDLL [0, 1] ∧
    (∃ dll' as', append demoDLL "Z" = some dll' ∧ DLLRepr dll' as' ∧ StatedInv dll') ∧
    (∃ dll' as', insert demoDLL 1 "Y" = OpResult.ok dll' ∧ DLLRepr dll' as' ∧
      StatedInv dll') ∧
    (∃ dll' as', delete demoDLL 0 = OpResult.ok dll' ∧ DLLRepr dll' as' ∧
      StatedInv dll') :=
  ⟨demoDLL_repr,
   (C1_mutators_preserve_invariants demoDLL_repr).1 "Z" (by decide),
   (C1_mutators_preserve_invariants demoDLL_repr).2.1 1 "Y" (by decide) (by decide)
     (by decide),
   (C1_mutators_preserve_invariants demoDLL_repr).2.2 0 (by decide) (by decide)⟩

/-- C2 counterexample: on the empty list, the negative index `-1` is NOT
reported as out of range by `delete` — the guard `indx >= len` does not
fire (`-1 >= 0` is false), the locate loop then dereferences the null
head pointer, and the call crashes instead of returning with the list
unchanged.  So "every index on an empty list" is reported is false. -/
theorem C2_counterexample :
    delete mtDLL (-1) = OpResult.crash ∧
    delete mtDLL (-1) ≠ OpResult.outOfRange mtDLL := by
  constructor
  · decide
  · decide

/-- C2 (amended): for every list state and every index, `insert` with
`index > length` returns the out-of-range report with the list object
entirely unchanged, and `delete` with `index ≥ length` — which on an
empty list covers every NONNEGATIVE index, negative indices being
unchecked (see C10) — likewise returns the out-of-range report with the
list unchanged; no partial mutation is observable in either case. -/
theorem C2_amended_out_of_range_noop (dll : DLL) (indx : Int) (data : String) :
    (dll.len < indx → insert dll indx data = OpResult.outOfRange dll) ∧
    (dll.len ≤ indx → delete dll indx = OpResult.outOfRange dll) := by
  constructor
  · intro hgt
    simp [insert, hgt]
  · intro hge
    simp [delete, hge]

theorem C2_witness :
    mtDLL.len < 5 ∧
    insert mtDLL 5 "x" = OpResult.outOfRange mtDLL ∧
    delete mtDLL 5 = OpResult.outOfRange mtDLL :=
  ⟨by decide,
   (C2_amended_out_of_range_noop mtDLL 5 "x").1 (by decide),
   (C2_amended_out_of_range_noop mtDLL 5 "x").2 (by decide)⟩

/-- C3: on every well-formed list with payload sequence `ds`, `find`
returns the zero-based position of the first node (in head-to-tail
order) whose payload equals the target, and the sentinel `-1` when no
node matches — including on the empty list. -/
theorem C3_find_first_match {dll : DLL} {as : List Nat} {ds : List String}
    (h : DLLRepr dll as) (hds : datasOf dll.store as = some ds) (target : String) :
    ∃ r : Int, find dll target = some r ∧
      ((r = -1 ∧ target ∉ ds) ∨
        (0 ≤ r ∧ ds.get? r.toNat = some target ∧ target ∉ ds.take r.toNat)) := by
  refine ⟨firstMatch target ds, find_ok h hds, ?_⟩
  rcases firstMatch_spec target ds with ⟨h1, h2⟩ | ⟨h1, h2, h3⟩
  · exact Or.inl ⟨h1, h2⟩
  · exact Or.inr ⟨h1, h2, h3⟩

theorem C3_witness :
    DLLRepr demoDLL [0, 1] ∧ datasOf demoDLL.store [0, 1] = some ["Head", "A"] ∧
    (∃ r : Int, find demoDLL "Ba" = some r ∧
      ((r = -1 ∧ "Ba" ∉ ["Head", "A"]) ∨
        (0 ≤ r ∧ ["Head", "A"].get? r.toNat = some "Ba" ∧
          "Ba" ∉ ["Head", "A"].take r.toNat))) :=
  ⟨demoDLL_repr, demoDLL_datas, C3_find_first_match demoDLL_repr demoDLL_datas "Ba"⟩

/-- C4: for every list state and every text, `insert(length, text)` is
exactly the `append(text)` call — the second guard diverts `index = length`
to `append`, so the two produce identical resulting structures (the very
same state, crash included when `append` would crash). -/
theorem C4_insert_at_length_is_append (dll : DLL) (data : String) :
    insert dll dll.len data =
      (match append dll data with
       | none => OpResult.crash
       | some d => OpResult.ok d) := by
  simp [insert]

/-- C5: for every well-formed list and every index in `[0, length-1]`,
`delete(index)` completes normally, reduces the length by exactly 1,
removes exactly the node at that zero-based position (the remaining
payload sequence is the original with position `index` erased), and the
chain and bidirectional-consistency invariants hold afterwards. -/
theorem C5_delete_valid {dll : DLL} {as : List Nat} {ds : List String} {indx : Int}
    (h : DLLRepr dll as) (hds : datasOf dll.store as = some ds)
    (h0 : 0 ≤ indx) (hlt : indx < dll.len) :
    ∃ dll', delete dll indx = OpResult.ok dll' ∧
      dll'.len = dll.len - 1 ∧
      DLLRepr dll' (as.eraseIdx indx.toNat) ∧
      datasOf dll'.store (as.eraseIdx indx.toNat) = some (ds.eraseIdx indx.toNat) ∧
      StatedInv dll' := by
  obtain ⟨dll', h1, h2, hfr, hlen', hdat⟩ := delete_ok h h0 hlt
  have hdll : datasOf dll'.store (as.take indx.toNat ++ as.drop (indx.toNat + 1)) =
      some (ds.take indx.toNat ++ ds.drop (indx.toNat + 1)) := by
    rw [datasOf_congr hdat]
    exact datasOf_take_drop as ds indx.toNat hds
  rw [List.eraseIdx_eq_take_drop_succ, List.eraseIdx_eq_take_drop_succ]
  exact ⟨dll', h1, hlen', h2, hdll, StatedInv_of_repr h2⟩

theorem C5_witness :
    DLLRepr demoDLL [0, 1] ∧ datasOf demoDLL.store [0, 1] = some ["Head", "A"] ∧
    (0 : Int) ≤ 0 ∧ (0 : Int) < demoDLL.len ∧
    (∃ dll', delete demoDLL 0 = OpResult.ok dll' ∧
      dll'.len = demoDLL.len - 1 ∧
      DLLRepr dll' ([0, 1].eraseIdx (0 : Int).toNat) ∧
      datasOf dll'.store ([0, 1].eraseIdx (0 : Int).toNat) =
        some (["Head", "A"].eraseIdx (0 : Int).toNat) ∧
      StatedInv dll') :=
  ⟨demoDLL_repr, demoDLL_datas, by decide, by decide,
   C5_delete_valid demoDLL_repr demoDLL_datas (by decide) (by decide)⟩

/-- C6: the claim that `traverse` never fails on any valid list —
including the empty list — is contradicted by the code: the traversal
loop is a do-while that reads `t->data` before testing `t != NULL`, so
on the empty list (reachable from the constructor via `delete(0)`, as
shown) the first read dereferences the null head and the program
crashes; the sentinel output is produced only for non-empty lists. -/
theorem C6_traverse_crashes_on_empty :
    create_doubly_linked_list "X" = some seedX ∧
    delete seedX 0 = OpResult.ok mtX ∧
    DLLRepr mtX [] ∧
    traverse_dll mtX = none ∧
    create_doubly_linked_list "Head" = some seedHead ∧
    append seedHead "A" = some demoDLL ∧
    traverse_dll demoDLL = some (["Head", "A"] ++ ["NULL"]) := by
  refine ⟨by decide, by decide, ⟨⟨rfl, rfl⟩, by decide, by simp, by simp⟩,
    by decide, by decide, by decide, by decide⟩

/-- C7: the claim that `create` reports an error on an oversized text is
contradicted by the code: `create_node` unconditionally `strcpy`s the
text into a fixed `MAX_DATA_LEN`-byte buffer, so a text of 101 bytes
overflows the heap buffer (undefined behaviour, modelled as `none` — no
error is ever reported and no well-formed list results), while a text
that fits yields the single-node list the claim describes. -/
theorem C7_create_oversized_overflows :
    create_doubly_linked_list longText = none ∧
    create_doubly_linked_list "ok" =
      some ⟨[(0, ⟨"ok", none, none⟩)], 1, some 0, some 0, 1⟩ := by
  constructor
  · decide
  · decide

/-- C8: for every `insert` call with `0 ≤ index < length` on a
well-formed (hence non-empty) list, the call completes normally, the
stored tail reference is unchanged by the splice — the post-splice
branch reassigning tail when `index = length` never executes, since that
case was diverted to `append` — and when `index = 0` the head reference
is rewritten to the freshly allocated node. -/
theorem C8_insert_valid_keeps_tail {dll : DLL} {as : List Nat} {indx : Int}
    {data : String} (h : DLLRepr dll as) (h0 : 0 ≤ indx) (hlt : indx < dll.len)
    (hsz : data.utf8ByteSize + 1 ≤ MAX_DATA_LEN) :
    ∃ dll', insert dll indx data = OpResult.ok dll' ∧
      dll'.tail = dll.tail ∧
      (indx = 0 → dll'.head = some dll.fresh) := by
  obtain ⟨dll', h1, _, htl, hhd, _⟩ := insert_ok h h0 hlt hsz
  refine ⟨dll', h1, htl, ?_⟩
  intro hz
  rw [hhd, if_pos hz]

theorem C8_witness :
    DLLRepr demoDLL [0, 1] ∧ (0 : Int) ≤ 0 ∧ (0 : Int) < demoDLL.len ∧
    (∃ dll', insert demoDLL 0 "W" = OpResult.ok dll' ∧
      dll'.tail = demoDLL.tail ∧
      ((0 : Int) = 0 → dll'.head = some demoDLL.fresh)) :=
  ⟨demoDLL_repr, by decide, by decide,
   C8_insert_valid_keeps_tail demoDLL_repr (by decide) (by decide) (by decide)⟩

/-- C9: for every N ≥ 1, starting from an empty list (head and tail
absent, length 0), appending N payloads that fit the node buffer and
then deleting indices N-1, N-2, …, 0 in that order returns the list to
the empty state: length 0 with head and tail both absent. -/
theorem C9_roundtrip (dll : DLL) (hh : dll.head = none) (ht : dll.tail = none)
    (hl : dll.len = 0) (ds : List String) (hN : 1 ≤ ds.length)
    (hsz : ∀ d ∈ ds, d.utf8ByteSize + 1 ≤ MAX_DATA_LEN) :
    ∃ d1 d2, appendAll dll ds = some d1 ∧ deleteDownFrom d1 ds.length = some d2 ∧
      d2.len = 0 ∧ d2.head = none ∧ d2.tail = none := by
  have h : DLLRepr dll [] := ⟨⟨hh, ht⟩, by simp [hl], by simp, by simp⟩
  obtain ⟨d1, as', hall, hrep', hlen'⟩ := appendAll_ok h hsz
  have hlds : as'.length = ds.length := by simpa using hlen'
  obtain ⟨d2, hdd, hrep2⟩ := deleteDownFrom_ok hrep' hlds
  obtain ⟨hseg2, hlen2, _, _⟩ := hrep2
  rw [DSeg_nil_iff] at hseg2
  exact ⟨d1, d2, hall, hdd, by simpa using hlen2, hseg2.1, hseg2.2⟩

theorem C9_witness :
    mtDLL.head = none ∧ mtDLL.tail = none ∧ mtDLL.len = 0 ∧
    1 ≤ (["a", "b", "c"] : List String).length ∧
    (∃ d1 d2, appendAll mtDLL ["a", "b", "c"] = some d1 ∧
      deleteDownFrom d1 (["a", "b", "c"] : List String).length = some d2 ∧
      d2.len = 0 ∧ d2.head = none ∧ d2.tail = none) :=
  ⟨rfl, rfl, rfl, by decide,
   C9_roundtrip mtDLL rfl rfl rfl ["a", "b", "c"] (by decide) (by decide)⟩

/-- C10: for every well-formed list and every negative index, the
out-of-range guards of `insert` (testing only `index > length`) and
`delete` (testing only `index ≥ length`) do not fire, so neither
operation rejects the call; the forward locate loop then runs off the
end of the chain through the null pointer, so both calls crash — the
operations are total only under the unchecked precondition
`index ≥ 0`. -/
theorem C10_negative_index_crashes {dll : DLL} {as : List Nat} {indx : Int}
    (h : DLLRepr dll as) (hneg : indx < 0) (data : String) :
    insert dll indx data = OpResult.crash ∧ delete dll indx = OpResult.crash := by
  have hlen0 : 0 ≤ dll.len := by
    rw [h.2.1]
    omega
  constructor
  · have g1 : ¬ (dll.len < indx) := by omega
    have g2 : ¬ (indx = dll.len) := by omega
    simp [insert, g1, g2, hneg]
  · have g1 : ¬ (dll.len ≤ indx) := by omega
    simp [delete, g1, hneg]

theorem C10_witness :
    DLLRepr demoDLL [0, 1] ∧ (-1 : Int) < 0 ∧
    insert demoDLL (-1) "q" = OpResult.crash ∧
    delete demoDLL (-1) = OpResult.crash :=
  ⟨demoDLL_repr, by decide,
   (C10_negative_index_crashes demoDLL_repr (by decide) "q").1,
   (C10_negative_index_crashes demoDLL_repr (by decide) "q").2⟩

end Dll
